import Mathlib

/-!
Verification of the markdown-preview extension fragment and the view-model
value classes of this repository.  The extension's own functions
(`getMarkdownUri`, `isMarkdownFile`, `MDDocumentContentProvider.update`,
`getDocumentContentForPreview`, the `highlight` callback, `fixHref`,
`showPreview` telemetry) are embedded directly from the source.  The host
`vscode.Uri` class and Node's `path` module belong to this repository /
its runtime but are not part of the given excerpt; they are modelled from
the specification where needed.
-/

set_option maxHeartbeats 1000000

/-- Character predicate: true when `c` is none of the URI delimiters
`:`, `/`, `?`, `#` (the character class used by the URI scheme regex). -/
def notDelim4 (c : Char) : Bool :=
  !(c == ':' || c == '/' || c == '?' || c == '#')

/-- Character predicate: true when `c` is none of `/`, `?`, `#`
(the characters that terminate the authority component). -/
def notPQH (c : Char) : Bool :=
  !(c == '/' || c == '?' || c == '#')

/-- Character predicate: true when `c` is neither `?` nor `#`
(the characters that terminate the path component). -/
def notQH (c : Char) : Bool :=
  !(c == '?' || c == '#')

/-- Character predicate: true when `c` is not `#`. -/
def notHash (c : Char) : Bool :=
  !(c == '#')

/-- Modelled from the spec: the host `vscode.Uri` value
(`src/vs/base/common/uri.ts`, not part of the excerpt), a record of
scheme, authority, path, query and fragment components, kept decoded. -/
structure Uri where
  scheme : List Char
  authority : List Char
  path : List Char
  query : List Char
  fragment : List Char
deriving DecidableEq

/-- Modelled from the spec: percent-escaping of one component character.
Characters listed in `delims` and the escape character `%` itself are
replaced by their percent triple; everything else passes through. -/
def escChar (delims : List Char) (c : Char) : List Char :=
  if c = '%' then ['%', '2', '5']
  else if c ∈ delims then
    (if c = '#' then ['%', '2', '3']
     else if c = '?' then ['%', '3', 'F']
     else if c = '/' then ['%', '2', 'F']
     else ['%', '3', 'A'])
  else [c]

/-- Modelled from the spec: percent-escaping of a whole component. -/
def escAll (delims : List Char) (s : List Char) : List Char :=
  s.flatMap (escChar delims)

/-- Decode one percent triple body: the two hex digits that this
development's escaping can produce. -/
def decodeTriple (c1 c2 : Char) : Option Char :=
  if c1 = '2' ∧ c2 = '5' then some '%'
  else if c1 = '2' ∧ c2 = '3' then some '#'
  else if c1 = '3' ∧ c2 = 'F' then some '?'
  else if c1 = '2' ∧ c2 = 'F' then some '/'
  else if c1 = '3' ∧ c2 = 'A' then some ':'
  else none

/-- Modelled from the spec: percent-decoding of a component, the inverse
of `escAll` on its image. -/
def unesc : List Char → List Char
  | [] => []
  | c :: c1 :: c2 :: r =>
    if c = '%' then
      match decodeTriple c1 c2 with
      | some d => d :: unesc r
      | none => c :: unesc (c1 :: c2 :: r)
    else c :: unesc (c1 :: c2 :: r)
  | c :: r => c :: unesc r

/-- Delimiters escaped inside the authority component. -/
def authDelims : List Char := ['/', '?', '#']

/-- Delimiters escaped inside the path component. -/
def pathDelims : List Char := ['?', '#']

/-- Delimiters escaped inside the query component. -/
def queryDelims : List Char := ['#']

/-- Delimiters escaped inside the fragment component (none; only `%`
itself is escaped there). -/
def fragDelims : List Char := []

/-- The `//`-plus-authority piece of the serialization: emitted when an
authority is present or the scheme is `file`. -/
def authorityPart (u : Uri) : List Char :=
  if u.authority ≠ [] ∨ u.scheme = "file".toList then
    '/' :: '/' :: escAll authDelims u.authority
  else []

/-- The `?`-plus-query piece of the serialization: emitted when the
query is non-empty. -/
def queryPart (q : List Char) : List Char :=
  if q ≠ [] then '?' :: escAll queryDelims q else []

/-- The `#`-plus-fragment piece of the serialization: emitted when the
fragment is non-empty. -/
def fragmentPart (f : List Char) : List Char :=
  if f ≠ [] then '#' :: escAll fragDelims f else []

/-- Modelled from the spec: `vscode.Uri#toString`, the round-trip-safe
serialization `scheme ":" ["//" authority] path ["?" query] ["#" fragment]`
with each component percent-escaped. -/
def Uri.toString (u : Uri) : List Char :=
  u.scheme ++ ':' ::
    (authorityPart u ++
     (escAll pathDelims u.path ++
      (queryPart u.query ++ fragmentPart u.fragment)))

/-- Modelled from the spec: the scheme part of `vscode.Uri.parse` — a
non-empty run of non-delimiter characters followed by `:`; returns the
scheme and the remainder, or an empty scheme and the whole input. -/
def parseScheme (s : List Char) : List Char × List Char :=
  match s.dropWhile notDelim4 with
  | c :: r =>
    if c = ':' ∧ s.takeWhile notDelim4 ≠ [] then (s.takeWhile notDelim4, r)
    else ([], s)
  | [] => ([], s)

/-- Modelled from the spec: the authority part of `vscode.Uri.parse` —
present exactly when the remainder starts with `//`, extending to the
next `/`, `?` or `#`. -/
def parseAuthority (s : List Char) : List Char × List Char :=
  if s.take 2 = ['/', '/'] then
    ((s.drop 2).takeWhile notPQH, (s.drop 2).dropWhile notPQH)
  else ([], s)

/-- Modelled from the spec: the query part of `vscode.Uri.parse` —
present exactly when the remainder starts with `?`, extending to the
next `#`. -/
def parseQuery (s : List Char) : List Char × List Char :=
  match s with
  | c :: r => if c = '?' then (r.takeWhile notHash, r.dropWhile notHash) else ([], s)
  | [] => ([], [])

/-- Modelled from the spec: the fragment part of `vscode.Uri.parse` —
everything after a leading `#`. -/
def parseFragment (s : List Char) : List Char :=
  match s with
  | c :: r => if c = '#' then r else []
  | [] => []

/-- Modelled from the spec: `vscode.Uri.parse`, splitting a serialized
URI into its five components and percent-decoding them. -/
def parseUri (s : List Char) : Uri :=
  let ps := parseScheme s
  let pa := parseAuthority ps.2
  let path := pa.2.takeWhile notQH
  let r3 := pa.2.dropWhile notQH
  let pq := parseQuery r3
  let frag := parseFragment pq.2
  ⟨ps.1, unesc pa.1, unesc path, unesc pq.1, unesc frag⟩

/-- Modelled from the spec: `vscode.Uri.file`, a URI with scheme `file`,
empty authority and the given path. -/
def Uri.file (p : List Char) : Uri :=
  ⟨"file".toList, [], p, [], []⟩

/-- Modelled from the spec: the file-system path of a `file` URI on a
POSIX host is its path component. -/
def Uri.fsPath (u : Uri) : List Char := u.path

/-- `getMarkdownUri` from the extension source: derive the preview URI by
replacing the scheme with `markdown`, appending `.rendered` to the path
and storing the serialized original URI in the query (`uri.with` keeps
the remaining components). -/
def getMarkdownUri (u : Uri) : Uri :=
  { u with
    scheme := "markdown".toList
    path := u.path ++ ".rendered".toList
    query := Uri.toString u }

/-- A host text document as the listeners see it: a language id and a URI. -/
structure TextDocument where
  languageId : String
  uri : Uri

/-- `isMarkdownFile` from the extension source: markdown language id and
not the extension's own `markdown` scheme. -/
def isMarkdownFile (d : TextDocument) : Bool :=
  d.languageId == "markdown" && !(d.uri.scheme == "markdown".toList)

/-- The body shared by the `onDidSaveTextDocument` and
`onDidChangeTextDocument` listeners in `activate`: call
`provider.update (getMarkdownUri document.uri)` exactly when
`isMarkdownFile` holds; `none` means `update` is not called. -/
def changeListenerUpdate (d : TextDocument) : Option Uri :=
  if isMarkdownFile d then some (getMarkdownUri d.uri) else none

/-- The debounce state of `MDDocumentContentProvider`: the `_waiting`
flag from the source, together with the host's pending `setTimeout`
callback modelled as remaining time plus the captured `uri`. -/
structure DebounceState (α : Type) where
  waiting : Bool
  timer : Option (Nat × α)
deriving DecidableEq

/-- `MDDocumentContentProvider.update` from the source: when `_waiting`
is unset, set it and arm a 300-unit one-shot timer capturing `uri`;
otherwise do nothing. -/
def MDDocumentContentProvider.update (s : DebounceState α) (u : α) : DebounceState α :=
  if s.waiting then s
  else { waiting := true, timer := some (300, u) }

/-- An event of the host scheduler: an `update` call or one time unit
passing. -/
inductive DebounceEvent (α : Type) where
  | update (u : α)
  | tick
deriving DecidableEq

/-- One scheduler step: an `update` call runs the source's `update`;
a tick advances the pending timer, and on expiry clears `_waiting` and
fires the change event with the captured `uri` (the emission list). -/
def step (s : DebounceState α) : DebounceEvent α → DebounceState α × List α
  | .update u => (MDDocumentContentProvider.update s u, [])
  | .tick =>
    match s.timer with
    | none => (s, [])
    | some (n, u) =>
      if n ≤ 1 then ({ waiting := false, timer := none }, [u])
      else ({ waiting := s.waiting, timer := some (n - 1, u) }, [])

/-- Run a list of scheduler events, collecting all emissions in order. -/
def run (s : DebounceState α) : List (DebounceEvent α) → DebounceState α × List α
  | [] => (s, [])
  | e :: es =>
    let p := step s e
    let q := run p.1 es
    (q.1, p.2 ++ q.2)

/-- The provider state at activation: `_waiting = false`, no timer. -/
def initState : DebounceState α := ⟨false, none⟩

/-- Number of time units in an event list. -/
def countTicks : List (DebounceEvent α) → Nat
  | [] => 0
  | .tick :: es => countTicks es + 1
  | .update _ :: es => countTicks es

/-- The three dashes that delimit a front-matter block. -/
def openDashes : List Char := ['-', '-', '-']

/-- True for the blank characters allowed after the dashes
(the regex class `[ \t]`). -/
def isWsChar (c : Char) : Bool := c == ' ' || c == '\t'

/-- Consume `[ \t]*(\r\n|\n)` at the front of the text: blanks followed
by one line terminator; `none` when the text does not start that way. -/
def chompWsNl : List Char → Option (List Char)
  | [] => none
  | c :: r =>
    if isWsChar c then chompWsNl r
    else if c = '\n' then some r
    else if c = '\r' then
      match r with
      | c2 :: r2 => if c2 = '\n' then some r2 else none
      | [] => none
    else none

/-- Match `-{3}[ \t]*(\r\n|\n)` at the front of the text (used both for
the opening line, anchored by `^`, and for the closing line after its
leading newline): `some rest` holds the text after the line. -/
def matchDashLine (s : List Char) : Option (List Char) :=
  if s.take 3 = openDashes then chompWsNl (s.drop 3) else none

/-- The lazy search the regex engine performs for
`(\r\n|\n)-{3}[ \t]*(\r\n|\n)` after the opening line.  At each step the
engine first tries the closing newline-plus-dash-line, then extends the
middle `(.|\r\n|\n)*?` by one unit: a character other than `\r` and `\n`
(ECMAScript `.` excludes both line terminators), a `\r\n` pair, or a
`\n`.  A bare `\r` (not followed by `\n`) can be neither middle nor
closing, so the whole match fails there (`none`).  A close can never
start at the `\n` of a `\r\n` pair, but trying the close at the pair
checks the same dash line, so checking once after the pair is exact. -/
def findClose : List Char → Option (List Char)
  | [] => none
  | [_] => none
  | c :: c2 :: r2 =>
    if c = '\n' then
      match matchDashLine (c2 :: r2) with
      | some rest => some rest
      | none => findClose (c2 :: r2)
    else if c = '\r' then
      (if c2 = '\n' then
        match matchDashLine r2 with
        | some rest => some rest
        | none => findClose r2
      else none)
    else findClose (c2 :: r2)

/-- The regex replace in `getDocumentContentForPreview`:
`content.replace(/^-{3}[ \t]*(\r\n|\n)(.|\r\n|\n)*?(\r\n|\n)-{3}[ \t]*(\r\n|\n)/, '')`
— strip one leading front-matter block, anchored at the start, with a
non-greedy middle; if the opening or the closing line is missing the
text is returned unchanged. -/
def stripFrontMatter (s : List Char) : List Char :=
  match matchDashLine s with
  | none => s
  | some r =>
    match findClose r with
    | none => s
    | some rest => rest

/-- `MDDocumentContentProvider.getDocumentContentForPreview` from the
source: strip the front matter exactly when the `markdown.previewFrontMatter`
configuration value is `hide`. -/
def getDocumentContentForPreview (previewFrontMatter : String) (content : List Char) : List Char :=
  if previewFrontMatter = "hide" then stripFrontMatter content else content

/-- Modelled from the spec: `markdown-it`'s `utils.escapeHtml` (external
renderer library), replacing `&`, `<`, `>` and the double quote by their
HTML entities. -/
def escapeHtml (s : List Char) : List Char :=
  s.flatMap fun c =>
    if c = '&' then "&amp;".toList
    else if c = '<' then "&lt;".toList
    else if c = '>' then "&gt;".toList
    else if c = '"' then "&quot;".toList
    else [c]

/-- Modelled from the spec: the `highlight.js` library surface the
callback uses — language recognition, and highlighting that either
returns markup (`some`) or throws (`none`). -/
structure HighlightLib where
  getLanguage : String → Bool
  highlightValue : String → String → Option (List Char)

/-- Opening of the fixed wrapper the callback emits. -/
def preWrap : List Char := "<pre class=\"hljs\"><code><div>".toList

/-- Closing of the fixed wrapper the callback emits. -/
def postWrap : List Char := "</div></code></pre>".toList

/-- The `highlight` callback installed by
`MDDocumentContentProvider.createRenderer`: for a truthy (non-empty) and
recognized language, wrap the library's markup, falling back to the
escaped code on a thrown error; otherwise wrap the escaped code. -/
def highlightFn (hl : HighlightLib) (str : String) (lang : String) : List Char :=
  if lang ≠ "" ∧ hl.getLanguage lang = true then
    match hl.highlightValue lang str with
    | some v => preWrap ++ v ++ postWrap
    | none => preWrap ++ escapeHtml str.toList ++ postWrap
  else preWrap ++ escapeHtml str.toList ++ postWrap

/-- Modelled from the spec: Node's `path.join` of the excluded `path`
module — joining one relative segment under a base directory (the `.`
and `..` normalization of full Node is not exercised by the claims). -/
def pathJoin (base seg : List Char) : List Char :=
  base ++ '/' :: seg

/-- Modelled from the spec: Node's `path.dirname` — the directory part
of a POSIX path: everything before the last `/`, the root `/` when the
only `/` is leading, and `.` when there is none. -/
def dirname (p : List Char) : List Char :=
  match p.reverse.dropWhile (fun c => !(c == '/')) with
  | [] => ['.']
  | [c] => if c = '/' then ['/'] else ['.']
  | _ :: rs => rs.reverse

/-- `MDDocumentContentProvider.isAbsolute` from the source.  Modelled
from the spec for the excluded Node `path` module: the source's test
`path.normalize(p + '/') === path.normalize(path.resolve(p) + '/')`
holds on POSIX exactly for paths that are already absolute, i.e. start
with `/`. -/
def isAbsolute (p : List Char) : Bool :=
  p.take 1 == ['/']

/-- `MDDocumentContentProvider.fixHref` from the source: keep an empty
href; keep an href that already parses with a URL scheme; turn an
absolute path into a `file` URI; otherwise join under the workspace root
when one is open, else under the directory of the previewed file. -/
def fixHref (rootPath : Option (List Char)) (resource : Uri) (href : List Char) : List Char :=
  if href ≠ [] then
    if (parseScheme href).1 ≠ [] then href
    else if isAbsolute href then Uri.toString (Uri.file href)
    else
      match rootPath with
      | some rp => Uri.toString (Uri.file (pathJoin rp href))
      | none => Uri.toString (Uri.file (pathJoin (dirname (Uri.fsPath resource)) href))
  else href

/-- The spec-level notion "href already has a URL scheme": a non-empty
run of non-delimiter characters followed by `:`. -/
def HasUrlScheme (href : List Char) : Prop :=
  ∃ sch rest, sch ≠ [] ∧ (∀ c ∈ sch, notDelim4 c = true) ∧ href = sch ++ ':' :: rest

/-- The telemetry event `showPreview` sends: the literal field values of
the source. -/
structure TelemetryEvent where
  name : String
  whereVal : String
  howVal : String
deriving DecidableEq

/-- `showPreview` from the extension source, restricted to its telemetry
effect: resolve the resource (explicit argument, else the active
editor's document); on the early-return paths no event is sent; when a
reporter exists, send `openPreview` with `where` chosen by `sideBySide`
and `how` by whether the raw `uri` argument was supplied — the source
spells the palette value `pallete`. -/
def showPreviewTelemetry (uriArg : Option Uri) (activeEditorUri : Option Uri)
    (sideBySide : Bool) (hasReporter : Bool) : Option TelemetryEvent :=
  let resource := match uriArg with
    | some u => some u
    | none => activeEditorUri
  match resource with
  | none => none
  | some _ =>
    if hasReporter then
      some ⟨"openPreview",
            if sideBySide then "sideBySide" else "inPlace",
            if uriArg.isSome then "action" else "pallete"⟩
    else none

/-- `ViewModelDecoration` from `viewModel.ts`: an opaque host-model
decoration (`source`) and a view-space range that the constructor leaves
unset (`null`, modelled as `none`). -/
structure ViewModelDecoration (Dec Rng : Type) where
  range : Option Rng
  source : Dec

/-- The `ViewModelDecoration` constructor from the source:
`this.range = null; this.source = source`. -/
def mkViewModelDecoration (source : Dec) : ViewModelDecoration Dec Rng :=
  ⟨none, source⟩

/-- `InlineDecoration` from `viewModel.ts`: a view-space range and a CSS
class name, both set by the constructor. -/
structure InlineDecoration (Rng : Type) where
  range : Rng
  inlineClassName : String

/-- Running an event list splits over append: the second part starts in
the state the first part ends in, and the emissions concatenate. -/
theorem run_append {α : Type} (s : DebounceState α) (es1 es2 : List (DebounceEvent α)) :
    run s (es1 ++ es2) =
      ((run (run s es1).1 es2).1, (run s es1).2 ++ (run (run s es1).1 es2).2) := by
  induction es1 generalizing s with
  | nil => simp [run]
  | cons e es ih =>
    simp only [List.cons_append, run, List.append_eq, ih, List.append_assoc]

/-- While the armed timer still has time left, any mix of `update` calls
and ticks emits nothing, keeps `_waiting` set and only advances the
timer; the captured URI stays that of the arming call. -/
theorem run_waiting_window {α : Type} (u : α) (n : Nat) (es : List (DebounceEvent α))
    (hn : countTicks es < n) :
    run (⟨true, some (n, u)⟩ : DebounceState α) es =
      (⟨true, some (n - countTicks es, u)⟩, []) := by
  induction es generalizing n with
  | nil => simp [run, countTicks]
  | cons e es ih =>
    cases e with
    | update v =>
      have hc : countTicks (DebounceEvent.update v :: es) = countTicks es := rfl
      rw [hc] at hn ⊢
      have hstep : step (⟨true, some (n, u)⟩ : DebounceState α) (DebounceEvent.update v) =
          (⟨true, some (n, u)⟩, []) := by
        simp [step, MDDocumentContentProvider.update]
      simp [run, hstep, ih n hn]
    | tick =>
      have hc : countTicks (DebounceEvent.tick :: es) = countTicks es + 1 := rfl
      rw [hc] at hn
      have h1 : ¬ n ≤ 1 := by omega
      have hstep : step (⟨true, some (n, u)⟩ : DebounceState α) DebounceEvent.tick =
          (⟨true, some (n - 1, u)⟩, []) := by
        simp [step, h1]
      have hn' : countTicks es < n - 1 := by omega
      have harith : n - 1 - countTicks es = n - (countTicks es + 1) := by omega
      simp [run, hstep, ih (n - 1) hn', hc, harith]

/-- An idle provider (no timer armed) emits nothing under ticks. -/
theorem run_idle {α : Type} (k : Nat) :
    run (⟨false, none⟩ : DebounceState α) (List.replicate k DebounceEvent.tick) =
      (⟨false, none⟩, []) := by
  induction k with
  | zero => simp [run]
  | succ k ih => simp [List.replicate_succ, run, step, ih]

/-- An armed timer with `n` units left fires exactly once within any
`m ≥ n` further ticks, emitting the captured URI and returning the
provider to the idle state. -/
theorem run_fire {α : Type} (u : α) (n m : Nat) (b : Bool)
    (h1 : 1 ≤ n) (h2 : n ≤ m) :
    run (⟨b, some (n, u)⟩ : DebounceState α) (List.replicate m DebounceEvent.tick) =
      (⟨false, none⟩, [u]) := by
  induction m generalizing n b with
  | zero => omega
  | succ m ih =>
    rw [List.replicate_succ]
    by_cases hn : n ≤ 1
    · have hstep : step (⟨b, some (n, u)⟩ : DebounceState α) DebounceEvent.tick =
          (⟨false, none⟩, [u]) := by
        simp [step, hn]
      simp [run, hstep, run_idle]
    · have hstep : step (⟨b, some (n, u)⟩ : DebounceState α) DebounceEvent.tick =
          (⟨b, some (n - 1, u)⟩, []) := by
        simp [step, hn]
      have := ih (n - 1) b (by omega) (by omega)
      simp [run, hstep, this]

/-- C1: calling `update` N ≥ 1 times within one 300-unit debounce window
(the first call arms the timer; `mid` holds the later calls, with fewer
than 300 time units passing) yields exactly one change emission once the
window elapses, and it carries the URI of the first call. -/
theorem debounce_single_emission {α : Type} (u1 : α) (mid : List (DebounceEvent α))
    (hmid : countTicks mid < 300) :
    (run initState (DebounceEvent.update u1 ::
        (mid ++ List.replicate 300 DebounceEvent.tick))).2 = [u1] := by
  have h0 : step (initState : DebounceState α) (DebounceEvent.update u1) =
      (⟨true, some (300, u1)⟩, []) := by
    simp [step, MDDocumentContentProvider.update, initState]
  have hwin := run_waiting_window u1 300 mid hmid
  have hfire := run_fire u1 (300 - countTicks mid) 300 true (by omega) (by omega)
  rw [show (DebounceEvent.update u1 ::
        (mid ++ List.replicate 300 DebounceEvent.tick)) =
      [DebounceEvent.update u1] ++ (mid ++ List.replicate 300 DebounceEvent.tick) from rfl,
    run_append, run_append]
  have hone : run (initState : DebounceState α) [DebounceEvent.update u1] =
      (⟨true, some (300, u1)⟩, []) := by
    simp [run, h0]
  rw [hone]
  simp only [hwin, hfire]
  simp

/-- Witness for C1 at a concrete four-call window over `Nat` URIs. -/
theorem debounce_single_emission_witness :
    countTicks [DebounceEvent.update 2, DebounceEvent.tick, DebounceEvent.update 3] < 300 ∧
      (run initState (DebounceEvent.update 1 ::
          ([DebounceEvent.update 2, DebounceEvent.tick, DebounceEvent.update 3] ++
            List.replicate 300 DebounceEvent.tick))).2 = [1] :=
  ⟨by decide, debounce_single_emission 1 _ (by decide)⟩

/-- C2: whenever the `_waiting` flag is set, a further `update` call is
a no-op: the provider state is unchanged, so the pending timer is not
reset and the new URI is dropped. -/
theorem update_noop_when_waiting {α : Type} (s : DebounceState α) (u' : α)
    (h : s.waiting = true) : MDDocumentContentProvider.update s u' = s := by
  simp [MDDocumentContentProvider.update, h]

/-- Witness for C2 at a concrete waiting state with a different URI. -/
theorem update_noop_when_waiting_witness :
    (⟨true, some (120, 5)⟩ : DebounceState Nat).waiting = true ∧
      MDDocumentContentProvider.update (⟨true, some (120, 5)⟩ : DebounceState Nat) 9 =
        ⟨true, some (120, 5)⟩ :=
  ⟨rfl, update_noop_when_waiting _ 9 rfl⟩

/-- C6: whenever the language tag is absent, unrecognized, or the
highlighter throws, the callback returns the HTML-escaped code inside
the fixed `<pre class="hljs"><code><div>` wrapper — never raw output,
and a highlighting failure is absorbed locally. -/
theorem highlight_fallback_escaped (hl : HighlightLib) (str lang : String)
    (h : lang = "" ∨ hl.getLanguage lang = false ∨ hl.highlightValue lang str = none) :
    highlightFn hl str lang = preWrap ++ escapeHtml str.toList ++ postWrap := by
  unfold highlightFn
  rcases h with h | h | h
  · simp [h]
  · simp [h]
  · by_cases hc : lang ≠ "" ∧ hl.getLanguage lang = true
    · rw [if_pos hc, h]
    · rw [if_neg hc]

/-- Witness for C6 with a library that recognizes nothing. -/
theorem highlight_fallback_escaped_witness :
    (HighlightLib.mk (fun _ => false) (fun _ _ => none)).getLanguage "zig" = false ∧
      highlightFn ⟨fun _ => false, fun _ _ => none⟩ "a<b" "zig" =
        preWrap ++ escapeHtml "a<b".toList ++ postWrap :=
  ⟨rfl, highlight_fallback_escaped _ "a<b" "zig" (Or.inr (Or.inl rfl))⟩

/-- C9: constructing a `ViewModelDecoration` stores the host-model
decoration unchanged in `source` and leaves `range` unset. -/
theorem viewModelDecoration_construction {Dec Rng : Type} (d : Dec) :
    (mkViewModelDecoration d : ViewModelDecoration Dec Rng).source = d ∧
      (mkViewModelDecoration d : ViewModelDecoration Dec Rng).range = none :=
  ⟨rfl, rfl⟩

/-- C10: a document whose URI scheme is `markdown` is never treated as a
markdown file, regardless of its language id, so the save and change
listeners never call `update` for a preview's own virtual document. -/
theorem preview_scheme_never_updates (d : TextDocument)
    (h : d.uri.scheme = "markdown".toList) :
    isMarkdownFile d = false ∧ changeListenerUpdate d = none := by
  have h1 : isMarkdownFile d = false := by
    simp [isMarkdownFile, h]
  exact ⟨h1, by simp [changeListenerUpdate, h1]⟩

/-- A newline in the sense of the regex alternation `(\r\n|\n)`. -/
def IsNlSeq (nl : List Char) : Prop :=
  nl = ['\n'] ∨ nl = ['\r', '\n']

/-- The text starts with a well-formed opening front-matter line:
three dashes, blanks, one line terminator. -/
def StartsWithOpenDelim (s : List Char) : Prop :=
  ∃ ws nl r, ws.all isWsChar = true ∧ IsNlSeq nl ∧
    s = openDashes ++ (ws ++ (nl ++ r))

/-- Somewhere in `r` a newline is followed by a well-formed closing
front-matter line. -/
def ExistsCloseIn (r : List Char) : Prop :=
  ∃ a b, r = a ++ '\n' :: b ∧
    ∃ ws nl rest, ws.all isWsChar = true ∧ IsNlSeq nl ∧
      b = openDashes ++ (ws ++ (nl ++ rest))

/-- `chompWsNl` accepts exactly blanks followed by a newline. -/
theorem chompWsNl_complete (ws nl r : List Char)
    (hw : ws.all isWsChar = true) (hn : IsNlSeq nl) :
    chompWsNl (ws ++ (nl ++ r)) = some r := by
  induction ws with
  | nil =>
    rcases hn with hn | hn <;> subst hn <;> simp [chompWsNl, isWsChar]
  | cons c ws ih =>
    rw [List.all_cons, Bool.and_eq_true] at hw
    simp [chompWsNl, hw.1, ih hw.2]

/-- Soundness of `chompWsNl`: success decomposes the input into blanks,
a newline and the remainder. -/
theorem chompWsNl_sound (y r : List Char) (h : chompWsNl y = some r) :
    ∃ ws nl, ws.all isWsChar = true ∧ IsNlSeq nl ∧ y = ws ++ (nl ++ r) := by
  induction y generalizing r with
  | nil => simp [chompWsNl] at h
  | cons c t ih =>
    by_cases hws : isWsChar c = true
    · rw [show chompWsNl (c :: t) = chompWsNl t by simp [chompWsNl, hws]] at h
      obtain ⟨ws, nl, h1, h2, h3⟩ := ih r h
      exact ⟨c :: ws, nl, by simp [List.all_cons, hws, h1], h2, by simp [h3]⟩
    · by_cases hnl : c = '\n'
      · rw [show chompWsNl (c :: t) = some t by
          subst hnl; simp +decide [chompWsNl]] at h
        obtain rfl : t = r := by simpa using h
        exact ⟨[], ['\n'], rfl, Or.inl rfl, by simp [hnl]⟩
      · by_cases hcr : c = '\r'
        · cases t with
          | nil =>
            rw [show chompWsNl [c] = none by
              subst hcr; simp +decide [chompWsNl]] at h
            cases h
          | cons c2 t2 =>
            by_cases h2 : c2 = '\n'
            · rw [show chompWsNl (c :: c2 :: t2) = some t2 by
                subst hcr; subst h2; simp +decide [chompWsNl]] at h
              obtain rfl : t2 = r := by simpa using h
              exact ⟨[], ['\r', '\n'], rfl, Or.inr rfl, by simp [hcr, h2]⟩
            · rw [show chompWsNl (c :: c2 :: t2) = none by
                subst hcr; simp +decide [chompWsNl, h2]] at h
              cases h
        · rw [show chompWsNl (c :: t) = none by
            simp [chompWsNl, hws, hnl, hcr]] at h
          cases h

/-- `matchDashLine` accepts exactly a three-dash line. -/
theorem matchDashLine_complete (ws nl r : List Char)
    (hw : ws.all isWsChar = true) (hn : IsNlSeq nl) :
    matchDashLine (openDashes ++ (ws ++ (nl ++ r))) = some r := by
  have ht : (openDashes ++ (ws ++ (nl ++ r))).take 3 = openDashes := rfl
  have hd : (openDashes ++ (ws ++ (nl ++ r))).drop 3 = ws ++ (nl ++ r) := rfl
  rw [matchDashLine, ht, hd, if_pos rfl, chompWsNl_complete ws nl r hw hn]

/-- Soundness of `matchDashLine`. -/
theorem matchDashLine_sound (s r : List Char) (h : matchDashLine s = some r) :
    ∃ ws nl, ws.all isWsChar = true ∧ IsNlSeq nl ∧
      s = openDashes ++ (ws ++ (nl ++ r)) := by
  rw [matchDashLine] at h
  by_cases h3 : s.take 3 = openDashes
  · rw [if_pos h3] at h
    obtain ⟨ws, nl, h1, h2, hy⟩ := chompWsNl_sound (s.drop 3) r h
    exact ⟨ws, nl, h1, h2, by rw [← h3, ← hy, List.take_append_drop]⟩
  · rw [if_neg h3] at h
    simp at h

/-- Soundness of the close search: success exhibits a newline followed
by a matching dash line. -/
theorem findClose_sound : (s rest : List Char) → findClose s = some rest →
    ∃ a b, s = a ++ '\n' :: b ∧ matchDashLine b = some rest
  | [], rest, h => by simp [findClose] at h
  | [c], rest, h => by simp [findClose] at h
  | c :: c2 :: r2, rest, h => by
    rw [findClose] at h
    by_cases hc : c = '\n'
    · rw [if_pos hc] at h
      subst hc
      cases hmb : matchDashLine (c2 :: r2) with
      | some rest' =>
        rw [hmb] at h
        obtain rfl : rest' = rest := by simpa using h
        exact ⟨[], c2 :: r2, rfl, hmb⟩
      | none =>
        rw [hmb] at h
        obtain ⟨a, b, h1, h2⟩ := findClose_sound (c2 :: r2) rest h
        exact ⟨'\n' :: a, b, by simp [h1], h2⟩
    · rw [if_neg hc] at h
      by_cases hcr : c = '\r'
      · rw [if_pos hcr] at h
        by_cases hc2 : c2 = '\n'
        · rw [if_pos hc2] at h
          subst hcr
          subst hc2
          cases hmb : matchDashLine r2 with
          | some rest' =>
            rw [hmb] at h
            obtain rfl : rest' = rest := by simpa using h
            exact ⟨['\r'], r2, rfl, hmb⟩
          | none =>
            rw [hmb] at h
            obtain ⟨a, b, h1, h2⟩ := findClose_sound r2 rest h
            exact ⟨'\r' :: '\n' :: a, b, by simp [h1], h2⟩
        · rw [if_neg hc2] at h
          cases h
      · rw [if_neg hcr] at h
        obtain ⟨a, b, h1, h2⟩ := findClose_sound (c2 :: r2) rest h
        exact ⟨c :: a, b, by simp [h1], h2⟩

/-- A text with a well-formed opening line satisfies `matchDashLine`. -/
theorem startsWithOpenDelim_isSome (s : List Char) (h : StartsWithOpenDelim s) :
    (matchDashLine s).isSome = true := by
  obtain ⟨ws, nl, r, h1, h2, h3⟩ := h
  rw [h3, matchDashLine_complete ws nl r h1 h2]
  rfl

/-- C5: when the text has no well-formed front-matter opening at its
start, or has an opening line with no closing dash line anywhere after
it, the extraction under `previewFrontMatter = hide` returns the input
unchanged. -/
theorem no_front_matter_identity (s : List Char)
    (h : ¬ StartsWithOpenDelim s ∨
      ∀ r, (∃ ws nl, ws.all isWsChar = true ∧ IsNlSeq nl ∧
              s = openDashes ++ (ws ++ (nl ++ r))) → ¬ ExistsCloseIn r) :
    getDocumentContentForPreview "hide" s = s := by
  rw [getDocumentContentForPreview, if_pos rfl, stripFrontMatter]
  cases hmo : matchDashLine s with
  | none => rfl
  | some r =>
    obtain ⟨ws, nl, hws, hnl, hs⟩ := matchDashLine_sound s r hmo
    rcases h with h | h
    · exact absurd ⟨ws, nl, r, hws, hnl, hs⟩ h
    · have hnoc : ¬ ExistsCloseIn r := h r ⟨ws, nl, hws, hnl, hs⟩
      cases hfc : findClose r with
      | none => simp only [hfc]
      | some rest =>
        obtain ⟨a, b, hab, hmb⟩ := findClose_sound r rest hfc
        obtain ⟨ws2, nl2, hw2, hn2, hb⟩ := matchDashLine_sound b rest hmb
        exact absurd ⟨a, b, hab, ws2, nl2, rest, hw2, hn2, hb⟩ hnoc

/-- Witness for C5 at a concrete text with no front matter. -/
theorem no_front_matter_identity_witness :
    (¬ StartsWithOpenDelim "hi\n".toList) ∧
      getDocumentContentForPreview "hide" "hi\n".toList = "hi\n".toList :=
  have hno : ¬ StartsWithOpenDelim "hi\n".toList := fun hst =>
    absurd (startsWithOpenDelim_isSome _ hst) (by decide)
  ⟨hno, no_front_matter_identity _ (Or.inl hno)⟩

/-- Witness for C10 at a concrete preview document that even carries the
markdown language id. -/
theorem preview_scheme_never_updates_witness :
    (TextDocument.mk "markdown"
        ⟨"markdown".toList, [], "/x.md.rendered".toList, [], []⟩).uri.scheme =
      "markdown".toList ∧
      isMarkdownFile (TextDocument.mk "markdown"
          ⟨"markdown".toList, [], "/x.md.rendered".toList, [], []⟩) = false ∧
      changeListenerUpdate (TextDocument.mk "markdown"
          ⟨"markdown".toList, [], "/x.md.rendered".toList, [], []⟩) = none :=
  ⟨rfl, preview_scheme_never_updates _ rfl⟩

/-- A non-`%` character decodes as itself in front of any tail. -/
theorem unesc_cons_ne (c : Char) (r : List Char) (hc : ¬ c = '%') :
    unesc (c :: r) = c :: unesc r := by
  match r with
  | [] => simp [unesc]
  | [c1] => simp [unesc]
  | c1 :: c2 :: r2 => simp [unesc, hc]

/-- A percent triple decodes to its encoded character in front of any
tail. -/
theorem unesc_triple (c1 c2 d : Char) (r : List Char)
    (hd : decodeTriple c1 c2 = some d) :
    unesc ('%' :: c1 :: c2 :: r) = d :: unesc r := by
  simp [unesc, hd]

/-- Percent-decoding inverts percent-escaping in front of any tail, for
any delimiter set drawn from the four URI delimiters. -/
theorem unesc_escAll (delims : List Char)
    (hd : ∀ c ∈ delims, c = ':' ∨ c = '/' ∨ c = '?' ∨ c = '#')
    (s t : List Char) : unesc (escAll delims s ++ t) = s ++ unesc t := by
  induction s with
  | nil => simp [escAll]
  | cons c s ih =>
    rw [show escAll delims (c :: s) = escChar delims c ++ escAll delims s from rfl,
      List.append_assoc]
    by_cases hc : c = '%'
    · subst hc
      rw [show escChar delims '%' = ['%', '2', '5'] from rfl]
      rw [show (['%', '2', '5'] : List Char) ++ (escAll delims s ++ t) =
        '%' :: '2' :: '5' :: (escAll delims s ++ t) from rfl]
      rw [unesc_triple '2' '5' '%' _ rfl, ih]
      simp
    · by_cases hm : c ∈ delims
      · rcases hd c hm with h4 | h4 | h4 | h4 <;> subst h4
        · rw [show escChar delims ':' = ['%', '3', 'A'] by
            simp +decide [escChar, hm]]
          rw [show (['%', '3', 'A'] : List Char) ++ (escAll delims s ++ t) =
            '%' :: '3' :: 'A' :: (escAll delims s ++ t) from rfl]
          rw [unesc_triple '3' 'A' ':' _ rfl, ih]
          simp
        · rw [show escChar delims '/' = ['%', '2', 'F'] by
            simp +decide [escChar, hm]]
          rw [show (['%', '2', 'F'] : List Char) ++ (escAll delims s ++ t) =
            '%' :: '2' :: 'F' :: (escAll delims s ++ t) from rfl]
          rw [unesc_triple '2' 'F' '/' _ rfl, ih]
          simp
        · rw [show escChar delims '?' = ['%', '3', 'F'] by
            simp +decide [escChar, hm]]
          rw [show (['%', '3', 'F'] : List Char) ++ (escAll delims s ++ t) =
            '%' :: '3' :: 'F' :: (escAll delims s ++ t) from rfl]
          rw [unesc_triple '3' 'F' '?' _ rfl, ih]
          simp
        · rw [show escChar delims '#' = ['%', '2', '3'] by
            simp +decide [escChar, hm]]
          rw [show (['%', '2', '3'] : List Char) ++ (escAll delims s ++ t) =
            '%' :: '2' :: '3' :: (escAll delims s ++ t) from rfl]
          rw [unesc_triple '2' '3' '#' _ rfl, ih]
          simp
      · rw [show escChar delims c = [c] by simp [escChar, hc, hm]]
        rw [show ([c] : List Char) ++ (escAll delims s ++ t) =
          c :: (escAll delims s ++ t) from rfl]
        rw [unesc_cons_ne c _ hc, ih]
        simp

/-- Percent-decoding inverts percent-escaping. -/
theorem unesc_escAll_nil (delims : List Char)
    (hd : ∀ c ∈ delims, c = ':' ∨ c = '/' ∨ c = '?' ∨ c = '#')
    (s : List Char) : unesc (escAll delims s) = s := by
  have := unesc_escAll delims hd s []
  simpa [unesc] using this

/-- An unescaped character passes through `escChar` unchanged. -/
theorem escChar_not_delim (delims : List Char) (c : Char) (hc : ¬ c = '%')
    (hm : c ∉ delims) : escChar delims c = [c] := by
  simp [escChar, hc, hm]

/-- A character of an escaped chunk lies in the escape alphabet. -/
theorem mem_escChar_delim (delims : List Char) (c x : Char)
    (hcm : c ∈ delims ∨ c = '%') (hx : x ∈ escChar delims c) :
    x = '%' ∨ x = '2' ∨ x = '3' ∨ x = '5' ∨ x = 'F' ∨ x = 'A' := by
  rw [escChar] at hx
  by_cases hc : c = '%'
  · rw [if_pos hc] at hx
    simp at hx
    tauto
  · have hm : c ∈ delims := by tauto
    rw [if_neg hc, if_pos hm] at hx
    by_cases h1 : c = '#' <;> by_cases h2 : c = '?' <;> by_cases h3 : c = '/' <;>
      simp [h1, h2, h3] at hx <;> tauto

/-- Every character of an escaped component satisfies any predicate that
holds on the escape alphabet and on all unescaped characters. -/
theorem escAll_all_pred (delims : List Char) (p : Char → Bool)
    (hesc : p '%' = true ∧ p '2' = true ∧ p '3' = true ∧ p '5' = true ∧
      p 'F' = true ∧ p 'A' = true)
    (hpass : ∀ c, c ∉ delims → ¬ c = '%' → p c = true) :
    ∀ s, ∀ c ∈ escAll delims s, p c = true := by
  intro s
  induction s with
  | nil => simp [escAll]
  | cons c s ih =>
    intro x hx
    rw [show escAll delims (c :: s) = escChar delims c ++ escAll delims s from rfl] at hx
    rw [List.mem_append] at hx
    rcases hx with hx | hx
    · by_cases hcm : c ∈ delims ∨ c = '%'
      · rcases hesc with ⟨e1, e2, e3, e5, eF, eA⟩
        rcases mem_escChar_delim delims c x hcm hx with rfl | rfl | rfl | rfl | rfl | rfl <;>
          assumption
      · push_neg at hcm
        rw [escChar_not_delim delims c hcm.2 hcm.1] at hx
        rw [List.mem_singleton] at hx
        subst hx
        exact hpass x hcm.1 hcm.2
    · exact ih x hx

/-- `takeWhile` passes over a block of satisfying characters. -/
theorem takeWhile_append_all {p : Char → Bool} (xs ys : List Char)
    (h : ∀ c ∈ xs, p c = true) :
    (xs ++ ys).takeWhile p = xs ++ ys.takeWhile p := by
  induction xs with
  | nil => simp
  | cons c xs ih =>
    rw [List.cons_append, List.takeWhile_cons, if_pos (h c (List.mem_cons_self c xs)),
      ih fun d hd => h d (List.mem_cons_of_mem c hd), List.cons_append]

/-- `dropWhile` passes over a block of satisfying characters. -/
theorem dropWhile_append_all {p : Char → Bool} (xs ys : List Char)
    (h : ∀ c ∈ xs, p c = true) :
    (xs ++ ys).dropWhile p = ys.dropWhile p := by
  induction xs with
  | nil => simp
  | cons c xs ih =>
    rw [List.cons_append, List.dropWhile_cons, if_pos (h c (List.mem_cons_self c xs)),
      ih fun d hd => h d (List.mem_cons_of_mem c hd)]

/-- When `takeWhile` takes nothing, `dropWhile` drops nothing. -/
theorem dropWhile_eq_self_of_takeWhile_nil {p : Char → Bool} (xs : List Char)
    (h : xs.takeWhile p = []) : xs.dropWhile p = xs := by
  cases xs with
  | nil => rfl
  | cons c r =>
    rw [List.takeWhile_cons] at h
    by_cases hc : p c = true
    · rw [if_pos hc] at h
      cases h
    · rw [List.dropWhile_cons, if_neg hc]

/-- `parseScheme` recovers a serialized scheme made of non-delimiter
characters. -/
theorem parseScheme_serialized (sch t : List Char) (h1 : sch ≠ [])
    (h2 : ∀ c ∈ sch, notDelim4 c = true) :
    parseScheme (sch ++ ':' :: t) = (sch, t) := by
  have ht : (sch ++ ':' :: t).takeWhile notDelim4 = sch := by
    rw [takeWhile_append_all sch (':' :: t) h2, List.takeWhile_cons,
      if_neg (by decide : ¬ notDelim4 ':' = true)]
    simp
  have hd : (sch ++ ':' :: t).dropWhile notDelim4 = ':' :: t := by
    rw [dropWhile_append_all sch (':' :: t) h2, List.dropWhile_cons,
      if_neg (by decide : ¬ notDelim4 ':' = true)]
  rw [parseScheme]
  simp only [hd, ht]
  simp [h1]

/-- The serialized query-fragment tail contributes nothing to the path
scan: it is empty or starts with `?` or `#`. -/
theorem qf_takeWhile_notQH (q f : List Char) :
    (queryPart q ++ fragmentPart f).takeWhile notQH = [] := by
  by_cases hq : q = [] <;> by_cases hf : f = [] <;>
    simp +decide [queryPart, fragmentPart, hq, hf, notQH]

/-- The path scan drops nothing of the query-fragment tail. -/
theorem qf_dropWhile_notQH (q f : List Char) :
    (queryPart q ++ fragmentPart f).dropWhile notQH = queryPart q ++ fragmentPart f :=
  dropWhile_eq_self_of_takeWhile_nil _ (qf_takeWhile_notQH q f)

/-- Characters of an escaped path pass the path scan. -/
theorem escAll_path_notQH (p : List Char) :
    ∀ c ∈ escAll pathDelims p, notQH c = true := by
  refine escAll_all_pred pathDelims notQH (by decide) ?_ p
  intro c hc hcp
  have h1 : ¬ c = '?' := fun h => hc (by simp [pathDelims, h])
  have h2 : ¬ c = '#' := fun h => hc (by simp [pathDelims, h])
  simp [notQH, h1, h2]

/-- Characters of an escaped authority pass the authority scan. -/
theorem escAll_auth_notPQH (a : List Char) :
    ∀ c ∈ escAll authDelims a, notPQH c = true := by
  refine escAll_all_pred authDelims notPQH (by decide) ?_ a
  intro c hc hcp
  have h1 : ¬ c = '/' := fun h => hc (by simp [authDelims, h])
  have h2 : ¬ c = '?' := fun h => hc (by simp [authDelims, h])
  have h3 : ¬ c = '#' := fun h => hc (by simp [authDelims, h])
  simp [notPQH, h1, h2, h3]

/-- Characters of an escaped query pass the query scan. -/
theorem escAll_query_notHash (q : List Char) :
    ∀ c ∈ escAll queryDelims q, notHash c = true := by
  refine escAll_all_pred queryDelims notHash (by decide) ?_ q
  intro c hc hcp
  have h1 : ¬ c = '#' := fun h => hc (by simp [queryDelims, h])
  simp [notHash, h1]

/-- The path scan collects exactly the escaped path and leaves the
query-fragment tail. -/
theorem path_qf_scan (p q f : List Char) :
    (escAll pathDelims p ++ (queryPart q ++ fragmentPart f)).takeWhile notQH =
      escAll pathDelims p ∧
    (escAll pathDelims p ++ (queryPart q ++ fragmentPart f)).dropWhile notQH =
      queryPart q ++ fragmentPart f := by
  constructor
  · rw [takeWhile_append_all _ _ (escAll_path_notQH p), qf_takeWhile_notQH,
      List.append_nil]
  · rw [dropWhile_append_all _ _ (escAll_path_notQH p), qf_dropWhile_notQH]

/-- The fragment piece contributes nothing to the query scan. -/
theorem fp_takeWhile_notHash (f : List Char) :
    (fragmentPart f).takeWhile notHash = [] := by
  by_cases hf : f = [] <;> simp +decide [fragmentPart, hf, notHash]

/-- Parsing the serialized query-fragment tail recovers the escaped
query and the fragment piece. -/
theorem parseQuery_qf (q f : List Char) :
    parseQuery (queryPart q ++ fragmentPart f) = (escAll queryDelims q, fragmentPart f) := by
  by_cases hq : q = []
  · subst hq
    rw [show queryPart [] = [] by simp [queryPart], List.nil_append,
      show escAll queryDelims [] = [] from rfl]
    by_cases hf : f = []
    · subst hf
      rw [show fragmentPart [] = [] by simp [fragmentPart]]
      rfl
    · rw [show fragmentPart f = '#' :: escAll fragDelims f by simp [fragmentPart, hf]]
      rw [parseQuery, if_neg (by decide : ¬ ('#' : Char) = '?')]
  · rw [show queryPart q = '?' :: escAll queryDelims q by simp [queryPart, hq]]
    rw [List.cons_append, parseQuery, if_pos rfl,
      takeWhile_append_all _ _ (escAll_query_notHash q), fp_takeWhile_notHash,
      List.append_nil, dropWhile_append_all _ _ (escAll_query_notHash q),
      dropWhile_eq_self_of_takeWhile_nil _ (fp_takeWhile_notHash f)]

/-- Parsing the fragment piece recovers the escaped fragment. -/
theorem parseFragment_fp (f : List Char) :
    parseFragment (fragmentPart f) = escAll fragDelims f := by
  by_cases hf : f = []
  · subst hf
    rw [show fragmentPart [] = [] by simp [fragmentPart]]
    rfl
  · rw [show fragmentPart f = '#' :: escAll fragDelims f by simp [fragmentPart, hf]]
    rw [parseFragment, if_pos rfl]

/-- Authority recovery when the serialization emitted `//`: the
authority scan stops exactly at the end of the escaped authority. -/
theorem parseAuthority_slashes (a X : List Char) (hX : X.takeWhile notPQH = []) :
    parseAuthority ('/' :: '/' :: (escAll authDelims a ++ X)) =
      (escAll authDelims a, X) := by
  have hc : List.take 2 ('/' :: '/' :: (escAll authDelims a ++ X)) = ['/', '/'] := rfl
  rw [parseAuthority, if_pos hc]
  rw [show ('/' :: '/' :: (escAll authDelims a ++ X)).drop 2 =
    escAll authDelims a ++ X from rfl]
  rw [takeWhile_append_all _ _ (escAll_auth_notPQH a), hX, List.append_nil,
    dropWhile_append_all _ _ (escAll_auth_notPQH a),
    dropWhile_eq_self_of_takeWhile_nil _ hX]

/-- Authority recovery when the serialization emitted no `//`. -/
theorem parseAuthority_no_slashes (X : List Char) (hX : X.take 2 ≠ ['/', '/']) :
    parseAuthority X = ([], X) := by
  rw [parseAuthority, if_neg hX]

/-- A list whose first two characters are `//` is a `//`-headed cons. -/
theorem take2_slashes_decomp (l : List Char) (h : l.take 2 = ['/', '/']) :
    ∃ t, l = '/' :: '/' :: t := by
  match l with
  | [] => simp at h
  | [c] => simp at h
  | c1 :: c2 :: t =>
    rw [show (c1 :: c2 :: t).take 2 = [c1, c2] from rfl] at h
    obtain ⟨h1, h2⟩ : c1 = '/' ∧ c2 = '/' := by simpa using h
    exact ⟨t, by rw [h1, h2]⟩

/-- The query-fragment tail never starts with a slash. -/
theorem qf_ne_slash_cons (q f t : List Char) :
    queryPart q ++ fragmentPart f ≠ '/' :: t := by
  by_cases hq : q = [] <;> by_cases hf : f = [] <;>
    simp +decide [queryPart, fragmentPart, hq, hf]

/-- An escaped chunk of a delimiter (or `%`) starts with `%`. -/
theorem escChar_delim_head (delims : List Char) (c : Char)
    (hcm : c ∈ delims ∨ c = '%') : ∃ cs, escChar delims c = '%' :: cs := by
  rw [escChar]
  split_ifs with h1 h2 h3 h4 h5
  · exact ⟨_, rfl⟩
  · exact ⟨_, rfl⟩
  · exact ⟨_, rfl⟩
  · exact ⟨_, rfl⟩
  · exact ⟨_, rfl⟩
  · tauto

/-- A serialized path whose source does not start with `//` never makes
the whole remainder start with `//`. -/
theorem pathQF_take2_ne (p q f : List Char) (hp : p.take 2 ≠ ['/', '/']) :
    (escAll pathDelims p ++ (queryPart q ++ fragmentPart f)).take 2 ≠ ['/', '/'] := by
  intro heq
  obtain ⟨t, ht⟩ := take2_slashes_decomp _ heq
  cases p with
  | nil =>
    rw [show escAll pathDelims ([] : List Char) = [] from rfl, List.nil_append] at ht
    exact qf_ne_slash_cons q f ('/' :: t) ht
  | cons c1 p1 =>
    rw [show escAll pathDelims (c1 :: p1) =
      escChar pathDelims c1 ++ escAll pathDelims p1 from rfl, List.append_assoc] at ht
    by_cases hcm : c1 ∈ pathDelims ∨ c1 = '%'
    · obtain ⟨cs, hcs⟩ := escChar_delim_head pathDelims c1 hcm
      rw [hcs, List.cons_append] at ht
      injection ht with hh _
      exact absurd hh (by decide)
    · push_neg at hcm
      rw [escChar_not_delim pathDelims c1 hcm.2 hcm.1, List.singleton_append] at ht
      injection ht with hh hrest
      subst hh
      cases p1 with
      | nil =>
        rw [show escAll pathDelims ([] : List Char) = [] from rfl,
          List.nil_append] at hrest
        exact qf_ne_slash_cons q f t hrest
      | cons c2 p2 =>
        rw [show escAll pathDelims (c2 :: p2) =
          escChar pathDelims c2 ++ escAll pathDelims p2 from rfl,
          List.append_assoc] at hrest
        by_cases hcm2 : c2 ∈ pathDelims ∨ c2 = '%'
        · obtain ⟨cs, hcs⟩ := escChar_delim_head pathDelims c2 hcm2
          rw [hcs, List.cons_append] at hrest
          injection hrest with hh2 _
          exact absurd hh2 (by decide)
        · push_neg at hcm2
          rw [escChar_not_delim pathDelims c2 hcm2.2 hcm2.1,
            List.singleton_append] at hrest
          injection hrest with hh2 _
          subst hh2
          exact hp rfl

/-- When the source path is empty or absolute, the authority scan takes
nothing of the serialized path-query-fragment remainder. -/
theorem pathQF_takeWhile_notPQH (p q f : List Char)
    (hp : p = [] ∨ p.take 1 = ['/']) :
    (escAll pathDelims p ++ (queryPart q ++ fragmentPart f)).takeWhile notPQH = [] := by
  rcases hp with hp | hp
  · subst hp
    rw [show escAll pathDelims ([] : List Char) = [] from rfl, List.nil_append]
    by_cases hq : q = [] <;> by_cases hf : f = [] <;>
      simp +decide [queryPart, fragmentPart, hq, hf, notPQH]
  · obtain ⟨p', rfl⟩ : ∃ p', p = '/' :: p' := by
      cases p with
      | nil => simp at hp
      | cons c p' =>
        rw [show (c :: p').take 1 = [c] from rfl] at hp
        obtain rfl : c = '/' := by simpa using hp
        exact ⟨p', rfl⟩
    rw [show escAll pathDelims ('/' :: p') = '/' :: escAll pathDelims p' from rfl]
    rw [List.cons_append, List.takeWhile_cons,
      if_neg (by decide : ¬ notPQH '/' = true)]

/-- `parseUri` unfolded into its sequential scans. -/
theorem parseUri_eq (s : List Char) :
    parseUri s = ⟨(parseScheme s).1,
      unesc (parseAuthority (parseScheme s).2).1,
      unesc (((parseAuthority (parseScheme s).2).2).takeWhile notQH),
      unesc ((parseQuery (((parseAuthority (parseScheme s).2).2).dropWhile notQH)).1),
      unesc (parseFragment
        ((parseQuery (((parseAuthority (parseScheme s).2).2).dropWhile notQH)).2))⟩ :=
  rfl

/-- The serialization round trip: parsing `toString` of a well-formed
URI recovers all five components.  Well-formedness: the scheme is
non-empty and delimiter-free; a `//`-emitting URI (authority present or
`file` scheme) has an empty or absolute path; any other URI's path does
not begin with `//`. -/
theorem parseUri_toString (v : Uri)
    (hs1 : v.scheme ≠ []) (hs2 : ∀ c ∈ v.scheme, notDelim4 c = true)
    (hpne : v.authority = [] → v.scheme ≠ "file".toList → v.path.take 2 ≠ ['/', '/'])
    (hslash : v.authority ≠ [] ∨ v.scheme = "file".toList →
      v.path = [] ∨ v.path.take 1 = ['/']) :
    parseUri (Uri.toString v) = v := by
  obtain ⟨sc, au, pa, qu, fr⟩ := v
  dsimp only at hs1 hs2 hpne hslash
  simp only [Uri.toString]
  rw [parseUri_eq]
  have hsch := parseScheme_serialized sc
    (authorityPart ⟨sc, au, pa, qu, fr⟩ ++
      (escAll pathDelims pa ++ (queryPart qu ++ fragmentPart fr))) hs1 hs2
  simp only [hsch]
  by_cases hb : au ≠ [] ∨ sc = "file".toList
  · have hap : authorityPart ⟨sc, au, pa, qu, fr⟩ =
        '/' :: '/' :: escAll authDelims au := by
      rw [authorityPart]
      exact if_pos hb
    rw [hap]
    simp only [List.cons_append]
    have hXtake : (escAll pathDelims pa ++
        (queryPart qu ++ fragmentPart fr)).takeWhile notPQH = [] :=
      pathQF_takeWhile_notPQH pa qu fr (hslash hb)
    rw [parseAuthority_slashes au _ hXtake]
    simp only
    rw [unesc_escAll_nil authDelims (by decide) au,
      (path_qf_scan pa qu fr).1, (path_qf_scan pa qu fr).2,
      unesc_escAll_nil pathDelims (by decide) pa,
      parseQuery_qf qu fr,
      unesc_escAll_nil queryDelims (by decide) qu,
      parseFragment_fp fr,
      unesc_escAll_nil fragDelims (by decide) fr]
  · have hap : authorityPart ⟨sc, au, pa, qu, fr⟩ = [] := by
      rw [authorityPart]
      exact if_neg hb
    rw [hap, List.nil_append]
    push_neg at hb
    have h2 := pathQF_take2_ne pa qu fr (hpne hb.1 hb.2)
    rw [parseAuthority_no_slashes _ h2]
    simp only
    rw [(path_qf_scan pa qu fr).1, (path_qf_scan pa qu fr).2,
      unesc_escAll_nil pathDelims (by decide) pa,
      parseQuery_qf qu fr,
      unesc_escAll_nil queryDelims (by decide) qu,
      parseFragment_fp fr,
      unesc_escAll_nil fragDelims (by decide) fr,
      show unesc [] = [] from rfl, hb.1]

/-- A list whose first character is `/` is a `/`-headed cons. -/
theorem take1_slash_decomp (l : List Char) (h : l.take 1 = ['/']) :
    ∃ t, l = '/' :: t := by
  cases l with
  | nil => simp at h
  | cons c t =>
    rw [show (c :: t).take 1 = [c] from rfl] at h
    obtain rfl : c = '/' := by simpa using h
    exact ⟨t, rfl⟩

/-- Appending `.rendered` preserves "does not start with `//`". -/
theorem path_rendered_take2 (p : List Char) (hp : p.take 2 ≠ ['/', '/']) :
    (p ++ ".rendered".toList).take 2 ≠ ['/', '/'] := by
  intro heq
  obtain ⟨t, ht⟩ := take2_slashes_decomp _ heq
  cases p with
  | nil =>
    rw [List.nil_append] at ht
    have h2 : (".rendered".toList).take 2 = ['/', '/'] := by rw [ht]; rfl
    exact absurd h2 (by decide)
  | cons c1 p1 =>
    cases p1 with
    | nil =>
      rw [show ([c1] : List Char) ++ ".rendered".toList =
        c1 :: ".rendered".toList from rfl] at ht
      injection ht with hh hrest
      have h1 : (".rendered".toList).take 1 = ['/'] := by rw [hrest]; rfl
      exact absurd h1 (by decide)
    | cons c2 p2 =>
      rw [show (c1 :: c2 :: p2) ++ ".rendered".toList =
        c1 :: c2 :: (p2 ++ ".rendered".toList) from rfl] at ht
      injection ht with hh hrest
      injection hrest with hh2 _
      subst hh
      subst hh2
      exact hp rfl

/-- C3: deriving the preview URI (scheme `markdown`, path plus
`.rendered`, query the serialized original URI) and parsing it back
recovers the original URI's serialization in the query field, for every
well-formed original URI. -/
theorem preview_uri_roundtrip (u : Uri)
    (h1 : u.authority = [] → u.path.take 2 ≠ ['/', '/'])
    (h2 : u.authority ≠ [] → u.path.take 1 = ['/']) :
    (parseUri (Uri.toString (getMarkdownUri u))).query = Uri.toString u := by
  have hrt := parseUri_toString (getMarkdownUri u)
    (by show ("markdown".toList : List Char) ≠ []; decide)
    (by show ∀ c ∈ "markdown".toList, notDelim4 c = true; decide)
    (by
      intro ha hf
      show (u.path ++ ".rendered".toList).take 2 ≠ ['/', '/']
      exact path_rendered_take2 u.path (h1 ha))
    (by
      intro hor
      rcases hor with ha | hf
      · right
        show (u.path ++ ".rendered".toList).take 1 = ['/']
        obtain ⟨t, ht⟩ := take1_slash_decomp u.path (h2 ha)
        rw [ht]
        rfl
      · exact absurd (show ("markdown".toList : List Char) = "file".toList from hf)
          (by decide))
  rw [hrt]
  rfl

/-- Witness for C3 at a concrete file URI. -/
theorem preview_uri_roundtrip_witness :
    ((Uri.mk "file".toList [] "/a/b.md".toList [] []).authority = [] →
      (Uri.mk "file".toList [] "/a/b.md".toList [] []).path.take 2 ≠ ['/', '/']) ∧
    ((Uri.mk "file".toList [] "/a/b.md".toList [] []).authority ≠ [] →
      (Uri.mk "file".toList [] "/a/b.md".toList [] []).path.take 1 = ['/']) ∧
    (parseUri (Uri.toString (getMarkdownUri
        (Uri.mk "file".toList [] "/a/b.md".toList [] [])))).query =
      Uri.toString (Uri.mk "file".toList [] "/a/b.md".toList [] []) :=
  ⟨by decide, by decide, preview_uri_roundtrip _ (by decide) (by decide)⟩

/-- An href with a URL scheme is recognized by `parseScheme`. -/
theorem hasUrlScheme_parse (href : List Char) (h : HasUrlScheme href) :
    (parseScheme href).1 ≠ [] := by
  obtain ⟨sch, rest, h1, h2, rfl⟩ := h
  rw [parseScheme_serialized sch rest h1 h2]
  exact h1

/-- An href recognized by `parseScheme` has a URL scheme. -/
theorem parseScheme_sound (href : List Char) (h : (parseScheme href).1 ≠ []) :
    HasUrlScheme href := by
  cases hd : href.dropWhile notDelim4 with
  | nil =>
    have hps : parseScheme href = ([], href) := by
      rw [parseScheme, hd]
    rw [hps] at h
    simp at h
  | cons c r =>
    by_cases hc : c = ':' ∧ href.takeWhile notDelim4 ≠ []
    · refine ⟨href.takeWhile notDelim4, r, hc.2, ?_, ?_⟩
      · intro x hx
        exact List.mem_takeWhile_imp hx
      · conv_lhs => rw [← List.takeWhile_append_dropWhile (p := notDelim4) (l := href)]
        rw [hd, hc.1]
    · have hps : parseScheme href = ([], href) := by
        rw [parseScheme, hd]
        exact if_neg hc
      rw [hps] at h
      simp at h

/-- C7: `fixHref` resolves a non-empty href by exactly four ordered
cases: (a) an href that already has a URL scheme is returned unchanged;
(b) an absolute local path becomes a `file` URI whose path content is
the href unchanged; (c) a relative path with an open workspace resolves
by joining under the workspace root; (d) a relative path with no
workspace resolves by joining under the previewed file's directory. -/
theorem fixHref_resolution (rootPath : Option (List Char)) (resource : Uri)
    (href : List Char) (hne : href ≠ []) :
    (HasUrlScheme href → fixHref rootPath resource href = href) ∧
    (¬ HasUrlScheme href → isAbsolute href = true →
      parseUri (fixHref rootPath resource href) = Uri.file href) ∧
    (∀ rp, ¬ HasUrlScheme href → isAbsolute href = false → rootPath = some rp →
      rp.take 1 = ['/'] →
      parseUri (fixHref rootPath resource href) = Uri.file (pathJoin rp href)) ∧
    (¬ HasUrlScheme href → isAbsolute href = false → rootPath = none →
      (dirname (Uri.fsPath resource)).take 1 = ['/'] →
      parseUri (fixHref rootPath resource href) =
        Uri.file (pathJoin (dirname (Uri.fsPath resource)) href)) := by
  have hfile1 : ∀ p : List Char, p.take 1 = ['/'] →
      parseUri (Uri.toString (Uri.file p)) = Uri.file p := by
    intro p hp
    refine parseUri_toString (Uri.file p)
      (by show ("file".toList : List Char) ≠ []; decide)
      (by show ∀ c ∈ "file".toList, notDelim4 c = true; decide)
      (fun _ hf => absurd rfl hf)
      (fun _ => Or.inr hp)
  refine ⟨?_, ?_, ?_, ?_⟩
  · intro h
    rw [fixHref.eq_def, if_pos hne, if_pos (hasUrlScheme_parse href h)]
  · intro hnos habs
    have hps : ¬ (parseScheme href).1 ≠ [] := fun hp => hnos (parseScheme_sound href hp)
    rw [fixHref.eq_def, if_pos hne, if_neg hps, if_pos habs]
    refine hfile1 href ?_
    simpa [isAbsolute] using habs
  · intro rp hnos habs hrp hrp1
    subst hrp
    have hps : ¬ (parseScheme href).1 ≠ [] := fun hp => hnos (parseScheme_sound href hp)
    have habs' : ¬ isAbsolute href = true := by simp [habs]
    rw [fixHref.eq_def, if_pos hne, if_neg hps, if_neg habs']
    show parseUri (Uri.toString (Uri.file (pathJoin rp href))) =
      Uri.file (pathJoin rp href)
    refine hfile1 _ ?_
    obtain ⟨t, ht⟩ := take1_slash_decomp rp hrp1
    rw [pathJoin, ht]
    rfl
  · intro hnos habs hrp hdir1
    subst hrp
    have hps : ¬ (parseScheme href).1 ≠ [] := fun hp => hnos (parseScheme_sound href hp)
    have habs' : ¬ isAbsolute href = true := by simp [habs]
    rw [fixHref.eq_def, if_pos hne, if_neg hps, if_neg habs']
    show parseUri (Uri.toString (Uri.file (pathJoin (dirname (Uri.fsPath resource)) href))) =
      Uri.file (pathJoin (dirname (Uri.fsPath resource)) href)
    refine hfile1 _ ?_
    obtain ⟨t, ht⟩ := take1_slash_decomp _ hdir1
    rw [pathJoin, ht]
    rfl

/-- Witness for C7 on the workspace-relative case at concrete inputs. -/
theorem fixHref_resolution_witness :
    ("a.css".toList ≠ []) ∧
      parseUri (fixHref (some "/ws".toList) (Uri.file "/d/x.md".toList) "a.css".toList) =
        Uri.file (pathJoin "/ws".toList "a.css".toList) :=
  ⟨by decide,
    have hnos : ¬ HasUrlScheme "a.css".toList := fun h =>
      absurd (hasUrlScheme_parse _ h) (by decide)
    (fixHref_resolution (some "/ws".toList) (Uri.file "/d/x.md".toList) "a.css".toList
        (by decide)).2.2.1 "/ws".toList hnos (by decide) rfl (by decide)⟩

/-- C8 counterexample: on the command-palette path the source sends the
literal field value `pallete`, so the claimed `how ∈ {action, palette}`
fails as stated. -/
theorem showPreview_palette_counterexample :
    (showPreviewTelemetry none (some (Uri.file "/a.md".toList)) false true).map
        TelemetryEvent.howVal = some "pallete" ∧
      ¬ ("pallete" = "action" ∨ "pallete" = "palette") :=
  ⟨rfl, by decide⟩

/-- C8 (amended): whenever `showPreview` sends the `openPreview` event,
`where` is `sideBySide` exactly when the side-by-side flag is set and
`inPlace` otherwise, and `how` is `action` exactly when an explicit URI
argument was supplied and the source's literal spelling `pallete`
otherwise; the event is absent whenever the reporter is unavailable. -/
theorem showPreview_telemetry_fields (uriArg activeEditorUri : Option Uri)
    (sideBySide hasReporter : Bool) (e : TelemetryEvent)
    (h : showPreviewTelemetry uriArg activeEditorUri sideBySide hasReporter = some e) :
    e.name = "openPreview" ∧
    (e.whereVal = if sideBySide then "sideBySide" else "inPlace") ∧
    (e.howVal = if uriArg.isSome then "action" else "pallete") ∧
    hasReporter = true := by
  cases uriArg with
  | some u =>
    cases hasReporter with
    | false => simp [showPreviewTelemetry] at h
    | true =>
      rw [showPreviewTelemetry] at h
      simp at h
      subst h
      simp
  | none =>
    cases activeEditorUri with
    | none => simp [showPreviewTelemetry] at h
    | some a =>
      cases hasReporter with
      | false => simp [showPreviewTelemetry] at h
      | true =>
        rw [showPreviewTelemetry] at h
        simp at h
        subst h
        simp

/-- Witness for C8's amended theorem at a concrete send. -/
theorem showPreview_telemetry_fields_witness :
    showPreviewTelemetry (some (Uri.file "/a.md".toList)) none true true =
        some ⟨"openPreview", "sideBySide", "action"⟩ ∧
      (TelemetryEvent.mk "openPreview" "sideBySide" "action").name = "openPreview" ∧
      ((TelemetryEvent.mk "openPreview" "sideBySide" "action").whereVal =
        if true then "sideBySide" else "inPlace") ∧
      ((TelemetryEvent.mk "openPreview" "sideBySide" "action").howVal =
        if (some (Uri.file "/a.md".toList)).isSome then "action" else "pallete") ∧
      (true : Bool) = true :=
  ⟨rfl, showPreview_telemetry_fields (some (Uri.file "/a.md".toList)) none true true
    ⟨"openPreview", "sideBySide", "action"⟩ rfl⟩
